import Mathlib

/-!
Verification of the ScrapingSetup ingestion-to-storage pipeline.

This file gives a shallow embedding of the core of the repository
(src/storage.rs, src/main.rs, src/uploader.rs) and proves properties of it.

Modelling conventions:
* Rust `f64` metric values are modelled as `Rat`; the change-detection
  tolerance `f64::EPSILON` is the rational `2 ^ (-52)`.  The properties
  proved here only exercise exact subtraction of equal or clearly distinct
  values, where the rational model agrees with IEEE doubles.
* `DateTime<Utc>` instants are modelled as `Int` (microseconds or seconds
  since the Unix epoch, as noted at each definition).
* Rust `HashMap`s are modelled as association lists (`List (key × value)`)
  with distinct keys; `HashSet<String>` as a duplicate-free `List String`.
* A parquet partition file is modelled by its decoded row list; the writer
  emits the rows the code would serialise (metric columns sorted by name,
  nulls dropped on read-back), so write-then-read round trips are faithful.
-/

namespace ScrapingSetup

/-- `f64::EPSILON` (= 2^-52), the near-zero tolerance of the change check. -/
def f64Epsilon : Rat := 1 / 2 ^ 52

/-- `f64::abs`. -/
def ratAbs (q : Rat) : Rat := if q < 0 then -q else q

/-- `(old_v - v).abs() > f64::EPSILON`: the float comparison used by both
partition kinds (storage.rs lines 239, 395, 400). -/
def floatDiffers (oldV newV : Rat) : Bool := decide (ratAbs (oldV - newV) > f64Epsilon)

section Assoc

variable {K V : Type} [DecidableEq K]

/-- `HashMap::get`: the value stored under `k`, if any. -/
def afind (k : K) : List (K × V) → Option V
  | [] => none
  | (k', v) :: t => if k = k' then some v else afind k t

/-- `HashMap::insert`: replace the value under `k`, or add the entry. -/
def aset (k : K) (v : V) : List (K × V) → List (K × V)
  | [] => [(k, v)]
  | (k', v') :: t => if k = k' then (k, v) :: t else (k', v') :: aset k v t

/-- The keys of an association list are pairwise distinct. -/
def keysNodup (l : List (K × V)) : Prop := (l.map Prod.fst).Nodup

instance keysNodupDecidable (l : List (K × V)) : Decidable (keysNodup l) :=
  inferInstanceAs (Decidable (l.map Prod.fst).Nodup)

end Assoc

/-- Insert every pair of `vs` into the map `m`, in order (the
`for (k, v) in new_values { map.insert(k, v) }` loops of storage.rs). -/
def upsertAll (vs : List (String × Rat)) (m : List (String × Rat)) : List (String × Rat) :=
  vs.foldl (fun acc kv => aset kv.1 kv.2 acc) m

/-! ## Calendar arithmetic and the Europe/Vienna reference timezone

`chrono` represents civil dates by their day count from the epoch; the
conversions below are the standard civil-calendar algorithms.  `chrono_tz`'s
`Europe::Vienna` is, for every modern year (1996 onward, which covers every
instant this service handles), UTC+1 with EU daylight saving: UTC+2 between
01:00 UTC on the last Sunday of March and 01:00 UTC on the last Sunday of
October. -/

/-- Day number (days since 1970-01-01) of a civil date. -/
def daysFromCivil (y m d : Int) : Int :=
  let y' := if m ≤ 2 then y - 1 else y
  let era := Int.fdiv y' 400
  let yoe := y' - era * 400
  let mp := if m > 2 then m - 3 else m + 9
  let doy := (153 * mp + 2) / 5 + d - 1
  let doe := yoe * 365 + yoe / 4 - yoe / 100 + doy
  era * 146097 + doe - 719468

/-- Civil date (year, month, day) of a day number. -/
def civilFromDays (z : Int) : Int × Int × Int :=
  let z' := z + 719468
  let era := Int.fdiv z' 146097
  let doe := z' - era * 146097
  let yoe := (doe - doe / 1460 + doe / 36524 - doe / 146096) / 365
  let y := yoe + era * 400
  let doy := doe - (365 * yoe + yoe / 4 - yoe / 100)
  let mp := (5 * doy + 2) / 153
  let d := doy - (153 * mp + 2) / 5 + 1
  let m := if mp < 10 then mp + 3 else mp - 9
  (if m ≤ 2 then y + 1 else y, m, d)

/-- Day number of the last Sunday of month `m` (given its last day `d`) of
year `y`.  1970-01-01 (day 0) was a Thursday, so day `z` is a Sunday exactly
when `(z + 4) % 7 = 0`. -/
def lastSundayOnOrBefore (y m d : Int) : Int :=
  let z := daysFromCivil y m d
  z - Int.emod (z + 4) 7

/-- UTC offset (seconds) of Europe/Vienna at the instant `t` (seconds since
the epoch): +2h during EU summer time, +1h otherwise. -/
def viennaOffsetSecs (t : Int) : Int :=
  let y := (civilFromDays (Int.fdiv t 86400)).1
  let dstStart := lastSundayOnOrBefore y 3 31 * 86400 + 3600
  let dstStop := lastSundayOnOrBefore y 10 31 * 86400 + 3600
  if dstStart ≤ t ∧ t < dstStop then 7200 else 3600

/-- Day number of the Vienna-local calendar date of instant `t` (seconds). -/
def viennaDateDays (t : Int) : Int := Int.fdiv (t + viennaOffsetSecs t) 86400

/-- Vienna-local calendar date of instant `t` (seconds): what
`t.with_timezone(&Vienna)`'s `year()/month()/day()` return. -/
def viennaDate (t : Int) : Int × Int × Int := civilFromDays (viennaDateDays t)

/-- UTC calendar date of instant `t` (seconds). -/
def utcDate (t : Int) : Int × Int × Int := civilFromDays (Int.fdiv t 86400)

/-- Vienna-local calendar date of an instant given in microseconds. -/
def viennaDateOfMicros (t : Int) : Int × Int × Int := viennaDate (Int.fdiv t 1000000)

/-- UTC calendar date of an instant given in microseconds. -/
def utcDateOfMicros (t : Int) : Int × Int × Int := utcDate (Int.fdiv t 1000000)

/-! ## Partition file paths (storage.rs, save_if_new) -/

/-- Rust `format!("{:02}", n)`: zero-pad single digits. -/
def pad2 (n : Int) : String :=
  if 0 ≤ n ∧ n < 10 then "0" ++ toString n else toString n

/-- The per-source folder: `base/sub` when a sub folder is configured, else
`base/name` (storage.rs lines 62-66 and 89-93). -/
def folderPath (basePath name : String) (sub : Option String) : String :=
  match sub with
  | some s => basePath ++ "/" ++ s
  | none => basePath ++ "/" ++ name

/-- The Values partition path built at storage.rs line 68:
`{folder}/year={}/month={:02}/day={:02}/data.parquet`. -/
def valuesFilePath (folder : String) (y m d : Int) : String :=
  folder ++ "/year=" ++ toString y ++ "/month=" ++ pad2 m ++ "/day=" ++ pad2 d ++ "/data.parquet"

/-- The Bids partition path built at storage.rs line 95:
`{folder}/year={}/month={:02}/day={:02}/data.parquet`. -/
def bidsFilePath (folder : String) (y m d : Int) : String :=
  folder ++ "/year=" ++ toString y ++ "/month=" ++ pad2 m ++ "/day=" ++ pad2 d ++ "/data.parquet"

/-! ## The scraper pool's tick-queue capacity (main.rs lines 113-115) -/

/-- `let buffer_size = if workers > 0 { workers as usize * 2 } else { 10 };` -/
def bufferSize (workers : Nat) : Nat :=
  if workers > 0 then workers * 2 else 10

/-! ## Values partitions (storage.rs, process_values_partition)

A decoded row of a Values parquet file: `start`/`end` instants (the Rust
field `end` is a Lean keyword and is called `stop` here), the nullable
`scraped_at` column (`none` both for a null and for a file written before
the column existed: the reader's `unwrap_or(0)` makes the two
indistinguishable from an absent column) and the non-null metric cells.
A metric name absent from `vals` models both a missing column and a null
cell — the reader skips exactly those. -/

structure VRow where
  start : Int
  stop : Int
  scrapedAt : Option Int
  vals : List (String × Rat)
  deriving DecidableEq, Repr

/-- The in-memory row map of `process_values_partition`:
`(start, end) -> (scraped_at, metric values)`. -/
abbrev VAssoc := List ((Int × Int) × (Int × List (String × Rat)))

/-- Reading the existing file into `all_rows` (storage.rs lines 174-216):
for each stored row, `entry(key).or_insert((scraped_at, {}))` — the first
row's `scraped_at` wins — then every non-null metric cell is inserted. -/
def readVRowStep (acc : VAssoc) (r : VRow) : VAssoc :=
  match afind (r.start, r.stop) acc with
  | none => acc ++ [((r.start, r.stop), (r.scrapedAt.getD 0, upsertAll r.vals []))]
  | some (sa, m) => aset (r.start, r.stop) (sa, upsertAll r.vals m) acc

/-- The whole file read into the row map. -/
def readVRows (rows : List VRow) : VAssoc :=
  rows.foldl readVRowStep []

/-- The change check for one incoming reading against a stored row
(storage.rs lines 232-246): a row with `scraped_at == 0` always counts as
changed; otherwise it is changed when some incoming metric is absent from
the row or differs by more than the tolerance. -/
def vRowChanged (sa : Int) (m : List (String × Rat)) (vals : List (String × Rat)) : Bool :=
  if sa = 0 then true
  else
    vals.any fun kv =>
      match afind kv.1 m with
      | some oldV => floatDiffers oldV kv.2
      | none => true

/-- Merging one incoming reading into the row map (storage.rs lines
221-255).  `entry(key).or_insert((0, {}))` creates a fresh row with
`scraped_at = 0`, which the change check then always flags; on change the
row's `scraped_at` becomes `now` and the incoming metrics are upserted. -/
def mergeVReading (now : Int) (st : Bool × VAssoc) (r : Int × Int × List (String × Rat)) :
    Bool × VAssoc :=
  let key := (r.1, r.2.1)
  let vals := r.2.2
  match afind key st.2 with
  | none => (true, st.2 ++ [(key, (now, upsertAll vals []))])
  | some (sa, m) =>
      if vRowChanged sa m vals then (true, aset key (now, upsertAll vals m) st.2)
      else st

/-- Serialising the row map back to a file (storage.rs lines 261-315): rows
sorted by `start` ascending, `scraped_at` written as a value, and the metric
columns emitted in alphabetical order (a row's nulls disappear again on
read-back, so only its present values are kept). -/
def writeVRows (a : VAssoc) : List VRow :=
  (List.insertionSort (fun x y : (Int × Int) × Int × List (String × Rat) => x.1.1 ≤ y.1.1) a).map
    fun e => ⟨e.1.1, e.1.2, some e.2.1, List.insertionSort (fun x y => x.1 ≤ y.1) e.2.2⟩

/-- `process_values_partition` on the decoded file: read, merge every
incoming reading, and rewrite the file only when something changed
(storage.rs lines 163-320; `Ok(false)` leaves the file untouched). -/
def processValues (file : List VRow) (data : List (Int × Int × List (String × Rat)))
    (now : Int) : Bool × List VRow :=
  let a0 := readVRows file
  let res := data.foldl (mergeVReading now) (false, a0)
  if res.1 then (true, writeVRows res.2) else (false, file)

/-! ## Bids partitions (storage.rs, process_bids_partition) -/

/-- One bid level (`ve_energy_scrapers::models::scraper_data::Bid`). -/
structure Bid where
  product : String
  rank : Int
  price : Option Rat
  volume : Option Rat
  deriving DecidableEq, Repr

/-- A decoded row of a Bids parquet file. -/
structure BRow where
  start : Int
  stop : Int
  product : String
  rank : Int
  price : Option Rat
  volume : Option Rat
  scrapedAt : Option Int
  deriving DecidableEq, Repr

/-- The nullable-float comparison of storage.rs lines 394-403: both absent
is unchanged, exactly one absent is changed, both present compare against
the tolerance. -/
def optDiffers (oldV newV : Option Rat) : Bool :=
  match oldV, newV with
  | some a, some b => floatDiffers a b
  | none, none => false
  | _, _ => true

/-- The row a changed incoming bid appends (storage.rs lines 409-419). -/
def mkBRow (start stop : Int) (b : Bid) (now : Int) : BRow :=
  ⟨start, stop, b.product, b.rank, b.price, b.volume, some now⟩

/-- The `latest_values` map read from the existing file (storage.rs lines
344-371): later rows overwrite earlier ones, so the map holds the most
recently written `(price, volume)` for each `(start, end, product, rank)`. -/
def latestOf (file : List BRow) : List ((Int × Int × String × Int) × (Option Rat × Option Rat)) :=
  file.foldl (fun acc r => aset (r.start, r.stop, r.product, r.rank) (r.price, r.volume) acc) []

/-- Processing one incoming bid (storage.rs lines 384-420): append a row
and update `latest_values` only when the bid differs from the last known
value for its key (a key never seen counts as changed). -/
def mergeBid (now : Int)
    (st : List BRow × List ((Int × Int × String × Int) × (Option Rat × Option Rat)))
    (r : Int × Int × Bid) :
    List BRow × List ((Int × Int × String × Int) × (Option Rat × Option Rat)) :=
  let b := r.2.2
  let key := (r.1, r.2.1, b.product, b.rank)
  let isChanged :=
    match afind key st.2 with
    | some pv => optDiffers pv.1 b.price || optDiffers pv.2 b.volume
    | none => true
  if isChanged then (st.1 ++ [mkBRow r.1 r.2.1 b now], aset key (b.price, b.volume) st.2)
  else st

/-- `process_bids_partition` on the decoded file (storage.rs lines
322-463): existing rows are re-emitted verbatim, the changed incoming bids
are appended after them, and an all-unchanged batch leaves the file
untouched (`Ok(false)`). -/
def processBids (file : List BRow) (data : List (Int × Int × Bid)) (now : Int) :
    Bool × List BRow :=
  let res := data.foldl (mergeBid now) ([], latestOf file)
  if res.1.isEmpty then (false, file) else (true, file ++ res.1)

/-! ## save_if_new (storage.rs lines 31-106) -/

/-- `ScraperPayload`: exactly one of the two reading shapes. -/
inductive ScraperPayload where
  | values (m : List (String × Rat))
  | bids (l : List Bid)
  deriving DecidableEq

/-- `ScraperData`: one reading for a delivery interval, instants in
microseconds since the epoch. -/
structure ScraperData where
  deliveryFrom : Int
  deliveryTo : Int
  payload : ScraperPayload
  deriving DecidableEq

/-- Grouping a kind's readings by the Vienna-local calendar date of
`delivery_from` (storage.rs lines 52-59 and 79-86).  The Rust `HashMap`
iterates its groups in an unspecified order; this model keeps them in
first-seen order, which fixes one of the admissible orders. -/
def groupByViennaDate {α : Type} (items : List (Int × Int × α)) :
    List ((Int × Int × Int) × List (Int × Int × α)) :=
  items.foldl
    (fun acc it =>
      let key := viennaDateOfMicros it.1
      match afind key acc with
      | none => acc ++ [(key, [it])]
      | some g => aset key (g ++ [it]) acc)
    []

/-- What one `save_if_new` call produces: its `Ok(saved_any)` boolean
return value, the paths inserted into the shared dirty-file set, and the
partition files after the call (`valuesStore` / `bidsStore` map a path to
the decoded file at that path, `[]` for an absent file). -/
structure SaveResult where
  saved : Bool
  dirty : List String
  valuesStore : String → List VRow
  bidsStore : String → List BRow

/-- The body of the per-group Values loop (storage.rs lines 61-75): build
the partition path, process the group, and on change set `saved_any`,
record the path dirty and install the rewritten file. -/
def valuesGroupStep (folder : String) (now : Int)
    (st : Bool × List String × (String → List VRow))
    (g : (Int × Int × Int) × List (Int × Int × List (String × Rat))) :
    Bool × List String × (String → List VRow) :=
  let path := valuesFilePath folder g.1.1 g.1.2.1 g.1.2.2
  let res := processValues (st.2.2 path) g.2 now
  if res.1 then (true, st.2.1 ++ [path], fun p => if p = path then res.2 else st.2.2 p)
  else st

/-- The body of the per-group Bids loop (storage.rs lines 88-103). -/
def bidsGroupStep (folder : String) (now : Int)
    (st : Bool × List String × (String → List BRow))
    (g : (Int × Int × Int) × List (Int × Int × Bid)) :
    Bool × List String × (String → List BRow) :=
  let path := bidsFilePath folder g.1.1 g.1.2.1 g.1.2.2
  let res := processBids (st.2.2 path) g.2 now
  if res.1 then (true, st.2.1 ++ [path], fun p => if p = path then res.2 else st.2.2 p)
  else st

/-- `save_if_new` (storage.rs lines 31-106): split the batch by payload
shape, group each kind by Vienna-local date, process every group's
partition, and record the path as dirty when the partition changed.  The
returned value of the Rust function is the single boolean `saved_any`. -/
def saveIfNew (basePath name : String) (sub : Option String) (data : List ScraperData)
    (vstore : String → List VRow) (bstore : String → List BRow) (now : Int) : SaveResult :=
  let valuesData : List (Int × Int × List (String × Rat)) :=
    data.foldl
      (fun acc it =>
        match it.payload with
        | .values m => acc ++ [(it.deliveryFrom, it.deliveryTo, m)]
        | .bids _ => acc)
      []
  let bidsData : List (Int × Int × Bid) :=
    data.foldl
      (fun acc it =>
        match it.payload with
        | .values _ => acc
        | .bids bs => acc ++ bs.map fun b => (it.deliveryFrom, it.deliveryTo, b))
      []
  let folder := folderPath basePath name sub
  let afterValues :=
    (groupByViennaDate valuesData).foldl (valuesGroupStep folder now) (false, [], vstore)
  let afterBids :=
    (groupByViennaDate bidsData).foldl (bidsGroupStep folder now)
      (afterValues.1, afterValues.2.1, bstore)
  ⟨afterBids.1, afterBids.2.1, afterValues.2.2, afterBids.2.2⟩

/-! ## Retention cleanup (storage.rs lines 108-161)

The directory tree is modelled as a rose tree of named files and
directories; `cleanupRec` walks it the way `cleanup_recursive` walks the
filesystem, with the names of the current node's ancestors (innermost
first) standing in for `path.parent()`. -/

/-- A directory tree. -/
inductive FsTree where
  | file (name : String)
  | dir (name : String) (children : List FsTree)

/-- Rust `str::parse::<i32>()`: an optional sign followed by one or more
ASCII digits, rejecting values outside the `i32` range. -/
def parseI32 (s : String) : Option Int :=
  let withSign : Option (Bool × List Char) :=
    match s.toList with
    | [] => none
    | c :: rest =>
        if c = '-' then some (true, rest)
        else if c = '+' then some (false, rest)
        else some (false, c :: rest)
  match withSign with
  | none => none
  | some (neg, digits) =>
      if digits.isEmpty ∨ ¬ digits.all Char.isDigit then none
      else
        let v : Int := digits.foldl (fun acc c => acc * 10 + (c.toNat - 48 : Nat)) 0
        let v := if neg then -v else v
        if -2147483648 ≤ v ∧ v ≤ 2147483647 then some v else none

/-- `extract_date_part` (storage.rs lines 156-161): strip the prefix from
the component's name and parse the rest as an `i32` (`strip_prefix` is
spelled out on the character lists so that it evaluates by reduction). -/
def extractDatePart (prefx : String) (name : String) : Option Int :=
  if name.toList.take prefx.length = prefx.toList then parseI32 (name.drop prefx.length)
  else none

/-- The number of days in a month of the proleptic Gregorian calendar. -/
def daysInMonth (y m : Int) : Int :=
  if m = 2 then
    if Int.emod y 4 = 0 ∧ (Int.emod y 100 ≠ 0 ∨ Int.emod y 400 = 0) then 29 else 28
  else if m = 4 ∨ m = 6 ∨ m = 9 ∨ m = 11 then 30
  else 31

/-- `Vienna.with_ymd_and_hms(y, m as u32, d as u32, 0, 0, 0).single()`
(storage.rs line 127), as the day number of the date when it exists:
chrono yields a single result exactly when the civil date is valid and in
chrono's year range (a negative month or day wraps to a huge `u32` under
`as u32` and is invalid; Vienna never shifts its clocks at midnight, so a
valid date's midnight is never skipped or ambiguous).  The produced
`DateTime`'s `date_naive()` is the date itself, and `NaiveDate` ordering is
the ordering of day numbers. -/
def viennaMidnightDays (y m d : Int) : Option Int :=
  if -262143 ≤ y ∧ y ≤ 262142 ∧ 1 ≤ m ∧ m ≤ 12 ∧ 1 ≤ d ∧ d ≤ daysInMonth y m then
    some (daysFromCivil y m d)
  else none

/-- The day-directory test of storage.rs lines 122-135: the current name
parses as `day=`, the parent as `month=`, the grandparent as `year=`, the
date exists, and it is strictly before the cutoff's Vienna-local date. -/
def dayDirDeletable (name : String) (ancestors : List String) (cutoffDays : Int) : Bool :=
  match extractDatePart "day=" name with
  | none => false
  | some dv =>
      match ancestors with
      | [] => false
      | parent :: rest =>
          match extractDatePart "month=" parent with
          | none => false
          | some mv =>
              match rest with
              | [] => false
              | grandparent :: _ =>
                  match extractDatePart "year=" grandparent with
                  | none => false
                  | some yv =>
                      match viennaMidnightDays yv mv dv with
                      | none => false
                      | some dateDays => decide (dateDays < cutoffDays)

mutual

/-- `cleanup_recursive` (storage.rs lines 119-154): a matching day
directory dated before the cutoff is removed with its whole subtree and the
walk stops there (`remove_dir_all` + `return`); otherwise the children are
processed and the directory itself is removed when it ends up empty (the
`let _ = remove_dir(path)`).  Files are left alone.  `none` means the node
is gone afterwards. -/
def cleanupRec (cutoffDays : Int) (ancestors : List String) : FsTree → Option FsTree
  | .file n => some (.file n)
  | .dir n cs =>
      if dayDirDeletable n ancestors cutoffDays then none
      else
        let cs' := cleanupList cutoffDays (n :: ancestors) cs
        if cs'.isEmpty then none else some (.dir n cs')

/-- The `for entry in read_dir(path)` loop over a directory's children. -/
def cleanupList (cutoffDays : Int) (ancestors : List String) : List FsTree → List FsTree
  | [] => []
  | t :: ts =>
      match cleanupRec cutoffDays ancestors t with
      | none => cleanupList cutoffDays ancestors ts
      | some t' => t' :: cleanupList cutoffDays ancestors ts

end

/-- The cutoff used by `cleanup` (storage.rs lines 108-115): the
Vienna-local date of `now - retention_days` days, as a day number
(`chrono::Duration::days(n)` is exactly `n * 86400` seconds).  `now` is in
seconds since the epoch. -/
def cleanupCutoffDays (now retentionDays : Int) : Int :=
  viennaDateDays (now - retentionDays * 86400)

/-! ## The upload cycle (uploader.rs lines 65-99) -/

/-- `HashSet::insert` on the duplicate-free list model. -/
def setInsert (x : String) (s : List String) : List String :=
  if x ∈ s then s else s ++ [x]

/-- One iteration of `Uploader::run`'s loop: drain the whole pending set
into a batch (the set is empty afterwards), collect the paths whose upload
fails — `uploadOk` tells which puts succeed — and re-insert exactly those.
`marks` are the paths concurrent merges insert between the drain and the
re-insertion; they land in the emptied set and stay for the next cycle. -/
def uploadCycle (pending : List String) (uploadOk : String → Bool) (marks : List String) :
    List String :=
  let batch := pending
  let drained : List String := []
  let failed := batch.foldl (fun acc p => if uploadOk p then acc else acc ++ [p]) []
  let afterMarks := marks.foldl (fun s p => setInsert p s) drained
  failed.foldl (fun s p => setInsert p s) afterMarks

/-! ## Association-list lemmas -/

section AssocLemmas

variable {K V : Type} [DecidableEq K] {k k' : K} {v v' : V} {l : List (K × V)}

theorem afind_nil : afind k ([] : List (K × V)) = none := rfl

theorem afind_cons :
    afind k ((k', v') :: l) = if k = k' then some v' else afind k l := rfl

theorem afind_append (l' : List (K × V)) :
    afind k (l ++ l') = match afind k l with
      | some w => some w
      | none => afind k l' := by
  induction l with
  | nil => rfl
  | cons h t ih =>
      by_cases hk : k = h.1 <;> simp [afind, hk, ih]

theorem afind_aset_self : afind k (aset k v l) = some v := by
  induction l with
  | nil => simp [aset, afind]
  | cons h t ih =>
      by_cases hk : k = h.1 <;> simp [aset, afind, hk, ih]

theorem afind_aset_ne (h : k ≠ k') : afind k (aset k' v l) = afind k l := by
  induction l with
  | nil => simp [aset, afind, h]
  | cons hd t ih =>
      by_cases hk : k' = hd.1
      · subst hk
        simp [aset, afind, h]
      · by_cases hk2 : k = hd.1 <;> simp [aset, afind, hk, hk2, ih]

omit [DecidableEq K] in
theorem notmem_keys_cons {hd : K × V} {t : List (K × V)}
    (h : k ∉ (hd :: t).map Prod.fst) : k ≠ hd.1 ∧ k ∉ t.map Prod.fst := by
  rw [List.map_cons] at h
  exact ⟨fun he => h (he ▸ List.mem_cons_self _ _), fun hm => h (List.mem_cons_of_mem _ hm)⟩

theorem mem_keys_of_afind_some (h : afind k l = some v) : k ∈ l.map Prod.fst := by
  induction l with
  | nil => simp [afind] at h
  | cons hd t ih =>
      rw [List.map_cons]
      by_cases hk : k = hd.1
      · exact hk ▸ List.mem_cons_self _ _
      · rw [afind_cons, if_neg hk] at h
        exact List.mem_cons_of_mem _ (ih h)

theorem afind_eq_none_of_notmem (h : k ∉ l.map Prod.fst) : afind k l = none := by
  induction l with
  | nil => rfl
  | cons hd t ih =>
      obtain ⟨h1, h2⟩ := notmem_keys_cons h
      rw [afind_cons, if_neg h1]
      exact ih h2

theorem afind_ne_none_of_mem_keys (h : k ∈ l.map Prod.fst) : afind k l ≠ none := by
  induction l with
  | nil => simp at h
  | cons hd t ih =>
      by_cases hk : k = hd.1
      · rw [afind_cons, if_pos hk]
        simp
      · rw [afind_cons, if_neg hk]
        rw [List.map_cons] at h
        rcases List.mem_cons.mp h with h1 | h1
        · exact absurd h1 hk
        · exact ih h1

theorem afind_eq_none_iff : afind k l = none ↔ k ∉ l.map Prod.fst :=
  ⟨fun h hmem => afind_ne_none_of_mem_keys hmem h, afind_eq_none_of_notmem⟩

theorem mem_of_afind_some (h : afind k l = some v) : (k, v) ∈ l := by
  induction l with
  | nil => simp [afind] at h
  | cons hd t ih =>
      by_cases hk : k = hd.1
      · rw [afind_cons, if_pos hk] at h
        obtain rfl : hd.2 = v := by injection h
        exact hk ▸ (by simp : ((hd.1, hd.2) : K × V) ∈ hd :: t)
      · rw [afind_cons, if_neg hk] at h
        exact List.mem_cons_of_mem _ (ih h)

omit [DecidableEq K] in
theorem keysNodup_cons {hd : K × V} {t : List (K × V)} (hnd : keysNodup (hd :: t)) :
    hd.1 ∉ t.map Prod.fst ∧ keysNodup t := by
  rw [keysNodup, List.map_cons, List.nodup_cons] at hnd
  exact hnd

theorem afind_eq_some_of_mem (hnd : keysNodup l) (h : (k, v) ∈ l) : afind k l = some v := by
  induction l with
  | nil => simp at h
  | cons hd t ih =>
      obtain ⟨hh, ht⟩ := keysNodup_cons hnd
      rcases List.mem_cons.mp h with h1 | h1
      · rw [← h1, afind_cons, if_pos rfl]
      · have hk : k ≠ hd.1 := by
          intro hk
          exact hh (hk ▸ List.mem_map_of_mem Prod.fst h1)
        rw [afind_cons, if_neg hk]
        exact ih ht h1

theorem keys_aset_of_mem (h : k ∈ l.map Prod.fst) :
    (aset k v l).map Prod.fst = l.map Prod.fst := by
  induction l with
  | nil => simp at h
  | cons hd t ih =>
      by_cases hk : k = hd.1
      · simp [aset, hk]
      · rw [List.map_cons] at h
        rcases List.mem_cons.mp h with h1 | h1
        · exact absurd h1 hk
        · simp [aset, hk, ih h1]

theorem keys_aset_of_notmem (h : k ∉ l.map Prod.fst) :
    (aset k v l).map Prod.fst = l.map Prod.fst ++ [k] := by
  induction l with
  | nil => simp [aset]
  | cons hd t ih =>
      obtain ⟨h1, h2⟩ := notmem_keys_cons h
      simp [aset, h1, ih h2]

theorem keysNodup_aset (hnd : keysNodup l) : keysNodup (aset k v l) := by
  by_cases h : k ∈ l.map Prod.fst
  · unfold keysNodup
    rw [keys_aset_of_mem h]
    exact hnd
  · unfold keysNodup
    rw [keys_aset_of_notmem h]
    exact List.Nodup.append hnd (List.nodup_singleton k) (by
      intro a ha hb
      rw [List.mem_singleton] at hb
      exact h (hb ▸ ha))

omit [DecidableEq K] in
theorem keysNodup_append_single (hnd : keysNodup l) (h : k ∉ l.map Prod.fst) :
    keysNodup (l ++ [(k, v)]) := by
  unfold keysNodup
  rw [List.map_append]
  exact List.Nodup.append hnd (List.nodup_singleton k) (by
    intro a ha hb
    simp at hb
    exact h (hb ▸ ha))

end AssocLemmas

/-! ## upsertAll lemmas -/

theorem upsertAll_cons (hd : String × Rat) (t m : List (String × Rat)) :
    upsertAll (hd :: t) m = upsertAll t (aset hd.1 hd.2 m) := rfl

theorem afind_upsertAll (vs m : List (String × Rat)) (k : String)
    (hnd : keysNodup vs) :
    afind k (upsertAll vs m) = match afind k vs with
      | some w => some w
      | none => afind k m := by
  induction vs generalizing m with
  | nil => simp [upsertAll, afind]
  | cons hd t ih =>
      obtain ⟨hhd, hnd'⟩ := keysNodup_cons hnd
      rw [upsertAll_cons, ih _ hnd']
      by_cases hk : k = hd.1
      · subst hk
        rw [afind_eq_none_of_notmem hhd, afind_cons, if_pos rfl, afind_aset_self]
      · rw [afind_cons, if_neg hk, afind_aset_ne hk]

theorem keysNodup_upsertAll (vs m : List (String × Rat)) (hnd : keysNodup m) :
    keysNodup (upsertAll vs m) := by
  induction vs generalizing m with
  | nil => simpa [upsertAll]
  | cons hd t ih =>
      rw [upsertAll_cons]
      exact ih _ (keysNodup_aset hnd)

/-! ## C1: Values and Bids partition paths for the same source and date -/

/-- C1.  The claim says Values and Bids readings for the same
(source-or-subfolder, Vienna-date) are written to two distinct paths.  The
code builds the two paths with the same format string
(`.../year=../month=../day=../data.parquet`, storage.rs lines 68 and 95),
so they are one and the same path for every folder and date: the claim
fails on the code (the Bids write would clobber a Values file of the same
source and date, whose schema its reader cannot parse). -/
theorem C1_values_bids_paths_coincide (folder : String) (y m d : Int) :
    bidsFilePath folder y m d = valuesFilePath folder y m d := rfl

/-! ## C2: the tick-queue capacity -/

/-- C2 counterexample.  With one worker the code's queue capacity is
`1 * 2 = 2`, not `max (2 * 1) 10 = 10` as the claim states (main.rs line
114 falls back to 10 only when `workers == 0`). -/
theorem C2_capacity_counterexample : bufferSize 1 ≠ max (2 * 1) 10 := by decide

/-- C2 amended.  The tick-queue capacity is `2 * worker_count` for every
positive worker count, and 10 only in the degenerate `worker_count = 0`
case; in particular a worker count below 5 does NOT get capacity 10. -/
theorem C2_capacity (w : Nat) :
    (0 < w → bufferSize w = 2 * w) ∧ (w = 0 → bufferSize w = 10) := by
  constructor
  · intro h
    simp [bufferSize, Nat.pos_iff_ne_zero.mp h, Nat.mul_comm]
  · intro h
    simp [bufferSize, h]

end ScrapingSetup

namespace ScrapingSetup

/-! ## C9: the upload cycle -/

theorem mem_setInsert {p x : String} {s : List String} :
    p ∈ setInsert x s ↔ p = x ∨ p ∈ s := by
  unfold setInsert
  by_cases h : x ∈ s
  · simp only [if_pos h]
    constructor
    · exact Or.inr
    · rintro (rfl | hp)
      · exact h
      · exact hp
  · simp only [if_neg h, List.mem_append, List.mem_singleton]
    tauto

theorem mem_foldl_setInsert {p : String} (l init : List String) :
    p ∈ l.foldl (fun s x => setInsert x s) init ↔ p ∈ init ∨ p ∈ l := by
  induction l generalizing init with
  | nil => simp
  | cons hd t ih =>
      rw [List.foldl_cons, ih]
      rw [mem_setInsert]
      constructor
      · rintro ((rfl | h) | h)
        · exact Or.inr (List.mem_cons_self _ _)
        · exact Or.inl h
        · exact Or.inr (List.mem_cons_of_mem _ h)
      · rintro (h | h)
        · exact Or.inl (Or.inr h)
        · rcases List.mem_cons.mp h with rfl | h
          · exact Or.inl (Or.inl rfl)
          · exact Or.inr h

theorem mem_foldl_failed {p : String} (ok : String → Bool) (l acc : List String) :
    p ∈ l.foldl (fun acc q => if ok q then acc else acc ++ [q]) acc ↔
      p ∈ acc ∨ (p ∈ l ∧ ok p = false) := by
  induction l generalizing acc with
  | nil => simp
  | cons hd t ih =>
      rw [List.foldl_cons, ih]
      by_cases h : ok hd
      · simp only [if_pos h]
        constructor
        · rintro (hp | ⟨hp, hop⟩)
          · exact Or.inl hp
          · exact Or.inr ⟨List.mem_cons_of_mem _ hp, hop⟩
        · rintro (hp | ⟨hp, hop⟩)
          · exact Or.inl hp
          · rcases List.mem_cons.mp hp with rfl | hp
            · exact absurd h (by simp [hop])
            · exact Or.inr ⟨hp, hop⟩
      · simp only [if_neg h]
        constructor
        · rintro (hp | ⟨hp, hop⟩)
          · rcases List.mem_append.mp hp with hp | hp
            · exact Or.inl hp
            · rw [List.mem_singleton] at hp
              exact Or.inr ⟨hp ▸ List.mem_cons_self _ _, hp ▸ Bool.of_not_eq_true h⟩
          · exact Or.inr ⟨List.mem_cons_of_mem _ hp, hop⟩
        · rintro (hp | ⟨hp, hop⟩)
          · exact Or.inl (List.mem_append.mpr (Or.inl hp))
          · rcases List.mem_cons.mp hp with rfl | hp
            · exact Or.inl (List.mem_append.mpr (Or.inr (List.mem_singleton.mpr rfl)))
            · exact Or.inr ⟨hp, hop⟩

/-- C9.  One upload cycle (uploader.rs lines 65-99) drains the whole dirty
set into a batch — the set itself restarts empty, so paths marked dirty
during the cycle (`marks`) are simply carried to the next cycle — and ends
with exactly: the drained paths whose upload failed (re-inserted for retry)
plus the concurrently marked ones.  A drained path whose upload succeeded
is gone unless independently re-marked. -/
theorem C9_upload_cycle (pending marks : List String) (uploadOk : String → Bool)
    (p : String) :
    p ∈ uploadCycle pending uploadOk marks ↔
      (p ∈ pending ∧ uploadOk p = false) ∨ p ∈ marks := by
  unfold uploadCycle
  rw [mem_foldl_setInsert, mem_foldl_setInsert, mem_foldl_failed]
  simp only [List.not_mem_nil, false_or]
  tauto

end ScrapingSetup

namespace ScrapingSetup

/-! ## C5: Bids partitions are append-only -/

theorem mergeBid_fold_append (now : Int) (data : List (Int × Int × Bid)) :
    ∀ (acc : List BRow) (latest : List ((Int × Int × String × Int) × (Option Rat × Option Rat))),
      ∃ app, (data.foldl (mergeBid now) (acc, latest)).1 = acc ++ app ∧
        ∀ r ∈ app, ∃ x ∈ data, r = mkBRow x.1 x.2.1 x.2.2 now := by
  induction data with
  | nil =>
      intro acc latest
      exact ⟨[], by simp⟩
  | cons hd t ih =>
      intro acc latest
      rw [List.foldl_cons]
      unfold mergeBid
      by_cases hch :
          (match afind (hd.1, hd.2.1, hd.2.2.product, hd.2.2.rank) latest with
            | some pv => optDiffers pv.1 hd.2.2.price || optDiffers pv.2 hd.2.2.volume
            | none => true) = true
      · simp only [hch, if_pos]
        obtain ⟨app, happ, hsrc⟩ := ih (acc ++ [mkBRow hd.1 hd.2.1 hd.2.2 now]) _
        refine ⟨[mkBRow hd.1 hd.2.1 hd.2.2 now] ++ app, by simpa using happ, ?_⟩
        intro r hr
        rcases List.mem_append.mp hr with hr | hr
        · rw [List.mem_singleton] at hr
          exact ⟨hd, List.mem_cons_self _ _, hr⟩
        · obtain ⟨x, hx, hrx⟩ := hsrc r hr
          exact ⟨x, List.mem_cons_of_mem _ hx, hrx⟩
      · rw [if_neg hch]
        obtain ⟨app, happ, hsrc⟩ := ih acc latest
        refine ⟨app, happ, ?_⟩
        intro r hr
        obtain ⟨x, hx, hrx⟩ := hsrc r hr
        exact ⟨x, List.mem_cons_of_mem _ hx, hrx⟩

unseal Rat.sub Rat.add Rat.mul Rat.inv in
/-- C5.  Every Bids-partition merge re-emits all previously existing rows
verbatim and in order, followed only by rows appended for changed incoming
bids (each stamped with the merge's `now`); no row is deleted or mutated
(storage.rs lines 344-371 retain the existing batches, lines 447-461 write
them back first).  And concretely, merging `{product: "X", rank: 1, price:
10, volume: 5}` and then the same key with price 11 yields two rows for
that key, not one. -/
theorem C5_bids_append_only :
    (∀ (file : List BRow) (data : List (Int × Int × Bid)) (now : Int),
      ∃ app, (processBids file data now).2 = file ++ app ∧
        ∀ r ∈ app, r.scrapedAt = some now ∧ ∃ x ∈ data, r = mkBRow x.1 x.2.1 x.2.2 now)
    ∧ (processBids (processBids [] [(0, 3600000000, ⟨"X", 1, some 10, some 5⟩)] 111).2
         [(0, 3600000000, ⟨"X", 1, some 11, some 5⟩)] 222
         = (true, [mkBRow 0 3600000000 ⟨"X", 1, some 10, some 5⟩ 111,
                   mkBRow 0 3600000000 ⟨"X", 1, some 11, some 5⟩ 222])) := by
  constructor
  · intro file data now
    obtain ⟨app, happ, hsrc⟩ := mergeBid_fold_append now data [] (latestOf file)
    simp only [processBids]
    rw [happ]
    simp only [List.nil_append]
    by_cases he : app.isEmpty
    · rw [if_pos he]
      exact ⟨[], by simp, by simp⟩
    · rw [if_neg he]
      refine ⟨app, rfl, ?_⟩
      intro r hr
      obtain ⟨x, hx, hrx⟩ := hsrc r hr
      exact ⟨by rw [hrx]; rfl, x, hx, hrx⟩
  · decide

end ScrapingSetup

namespace ScrapingSetup

/-! ## C3: what the merge call returns -/

theorem foldl_invariant {γ σ : Type} (P : σ → Prop) (step : σ → γ → σ)
    (h : ∀ st g, P st → P (step st g)) :
    ∀ (gs : List γ) (st : σ), P st → P (gs.foldl step st) := by
  intro gs
  induction gs with
  | nil => intro st hst; exact hst
  | cons hd t ih => intro st hst; exact ih _ (h st hd hst)

theorem valuesGroupStep_inv (folder : String) (now : Int)
    (st : Bool × List String × (String → List VRow)) (g) :
    (st.1 = true ↔ st.2.1 ≠ []) →
    ((valuesGroupStep folder now st g).1 = true ↔ (valuesGroupStep folder now st g).2.1 ≠ []) := by
  intro hst
  unfold valuesGroupStep
  by_cases hres : (processValues (st.2.2 (valuesFilePath folder g.1.1 g.1.2.1 g.1.2.2)) g.2 now).1
  · simp [hres]
  · simp only [hres]
    simpa using hst

theorem bidsGroupStep_inv (folder : String) (now : Int)
    (st : Bool × List String × (String → List BRow)) (g) :
    (st.1 = true ↔ st.2.1 ≠ []) →
    ((bidsGroupStep folder now st g).1 = true ↔ (bidsGroupStep folder now st g).2.1 ≠ []) := by
  intro hst
  unfold bidsGroupStep
  by_cases hres : (processBids (st.2.2 (bidsFilePath folder g.1.1 g.1.2.1 g.1.2.2)) g.2 now).1
  · simp [hres]
  · simp only [hres]
    simpa using hst

unseal Rat.sub Rat.add Rat.mul Rat.inv in
/-- C3 counterexample.  The claim says the merge call returns the set of
changed partition file paths.  The Rust `save_if_new` returns
`Result<bool>` (storage.rs line 31): the returned value is the single
boolean `saved_any`.  Two calls below change different partitions (their
dirty-path sets differ) yet return the identical value, so the returned
value cannot be the set of changed paths. -/
theorem C3_counterexample :
    ((saveIfNew "data" "src" none [⟨1704067200000000, 1704070800000000, .values [("a", 1)]⟩]
        (fun _ => []) (fun _ => []) 100).saved
      = (saveIfNew "data" "src" none [⟨1704412800000000, 1704416400000000, .values [("a", 1)]⟩]
        (fun _ => []) (fun _ => []) 100).saved)
    ∧ (saveIfNew "data" "src" none [⟨1704067200000000, 1704070800000000, .values [("a", 1)]⟩]
        (fun _ => []) (fun _ => []) 100).dirty
      ≠ (saveIfNew "data" "src" none [⟨1704412800000000, 1704416400000000, .values [("a", 1)]⟩]
        (fun _ => []) (fun _ => []) 100).dirty := by
  decide

/-- C3 amended.  `save_if_new` returns only a boolean: `true` exactly when
at least one partition file was rewritten.  The changed partitions' paths
are not returned; they are inserted into the shared dirty-file set (here
the `dirty` component), one path per changed partition. -/
theorem C3_merge_returns_boolean (basePath name : String) (sub : Option String)
    (data : List ScraperData) (vstore : String → List VRow) (bstore : String → List BRow)
    (now : Int) :
    (saveIfNew basePath name sub data vstore bstore now).saved = true ↔
      (saveIfNew basePath name sub data vstore bstore now).dirty ≠ [] := by
  simp only [saveIfNew]
  have hv := foldl_invariant (fun st => st.1 = true ↔ st.2.1 ≠ [])
    (valuesGroupStep (folderPath basePath name sub) now)
    (valuesGroupStep_inv (folderPath basePath name sub) now)
  have hb := foldl_invariant (fun st => st.1 = true ↔ st.2.1 ≠ [])
    (bidsGroupStep (folderPath basePath name sub) now)
    (bidsGroupStep_inv (folderPath basePath name sub) now)
  exact hb _ _ (hv _ _ (by simp))

end ScrapingSetup

namespace ScrapingSetup

/-! ## Invariants of the Values row map -/

theorem mem_aset {K V : Type} [DecidableEq K] {e : K × V} {k : K} {v : V}
    {l : List (K × V)} (h : e ∈ aset k v l) : e = (k, v) ∨ e ∈ l := by
  induction l with
  | nil =>
      rw [aset, List.mem_singleton] at h
      exact Or.inl h
  | cons hd t ih =>
      rw [aset] at h
      by_cases hk : k = hd.1
      · rw [if_pos hk] at h
        rcases List.mem_cons.mp h with h1 | h1
        · exact Or.inl h1
        · exact Or.inr (List.mem_cons_of_mem _ h1)
      · rw [if_neg hk] at h
        rcases List.mem_cons.mp h with h1 | h1
        · exact Or.inr (h1 ▸ List.mem_cons_self _ _)
        · rcases ih h1 with h2 | h2
          · exact Or.inl h2
          · exact Or.inr (List.mem_cons_of_mem _ h2)

/-- The well-formedness the Rust `HashMap`s guarantee: distinct row keys,
and distinct metric names within each row. -/
def goodAssoc (a : VAssoc) : Prop := keysNodup a ∧ ∀ e ∈ a, keysNodup e.2.2

theorem goodAssoc_nil : goodAssoc [] := ⟨List.nodup_nil, by simp⟩

/-- One step of the file-reading fold keeps the row map well formed. -/
theorem readStep_good (r : VRow) {a : VAssoc} (hg : goodAssoc a) :
    goodAssoc (readVRowStep a r) := by
  unfold readVRowStep
  cases hfind : afind (r.start, r.stop) a with
  | none =>
      refine ⟨keysNodup_append_single hg.1 (afind_eq_none_iff.mp hfind), ?_⟩
      intro e he
      rcases List.mem_append.mp he with he | he
      · exact hg.2 e he
      · rw [List.mem_singleton] at he
        subst he
        exact keysNodup_upsertAll _ _ List.nodup_nil
  | some v =>
      obtain ⟨sa, m⟩ := v
      refine ⟨keysNodup_aset hg.1, ?_⟩
      intro e he
      rcases mem_aset he with he | he
      · subst he
        exact keysNodup_upsertAll _ _ ((hg.2 _ (mem_of_afind_some hfind)))
      · exact hg.2 e he

theorem readVRows_good (rows : List VRow) : goodAssoc (readVRows rows) := by
  unfold readVRows
  exact foldl_invariant goodAssoc readVRowStep (fun a r hg => readStep_good r hg) rows [] goodAssoc_nil

/-- A merge step keeps the row map well formed. -/
theorem mergeVReading_good (now : Int) (r : Int × Int × List (String × Rat))
    {st : Bool × VAssoc} (hg : goodAssoc st.2) : goodAssoc (mergeVReading now st r).2 := by
  simp only [mergeVReading]
  cases hfind : afind (r.1, r.2.1) st.2 with
  | none =>
      refine ⟨keysNodup_append_single hg.1 (afind_eq_none_iff.mp hfind), ?_⟩
      intro e he
      rcases List.mem_append.mp he with he | he
      · exact hg.2 e he
      · rw [List.mem_singleton] at he
        subst he
        exact keysNodup_upsertAll _ _ List.nodup_nil
  | some v =>
      obtain ⟨sa, m⟩ := v
      by_cases hch : vRowChanged sa m r.2.2 = true
      · simp only [hch, if_true]
        refine ⟨keysNodup_aset hg.1, ?_⟩
        intro e he
        rcases mem_aset he with he | he
        · subst he
          exact keysNodup_upsertAll _ _ ((hg.2 _ (mem_of_afind_some hfind)))
        · exact hg.2 e he
      · simp only [Bool.not_eq_true] at hch
        simp only [hch, Bool.false_eq_true, if_false]
        exact hg

/-- `process_values_partition` on one incoming reading, unfolded. -/
theorem processValues_single (file : List VRow) (df dt now : Int)
    (vals : List (String × Rat)) :
    processValues file [(df, dt, vals)] now =
      match afind (df, dt) (readVRows file) with
      | none =>
          (true, writeVRows (readVRows file ++ [((df, dt), (now, upsertAll vals []))]))
      | some (sa, m) =>
          if vRowChanged sa m vals then
            (true, writeVRows (aset (df, dt) (now, upsertAll vals m) (readVRows file)))
          else (false, file) := by
  simp only [processValues, List.foldl_cons, List.foldl_nil, mergeVReading]
  cases hfind : afind (df, dt) (readVRows file) with
  | none => simp
  | some v =>
      obtain ⟨sa, m⟩ := v
      by_cases hch : vRowChanged sa m vals = true
      · simp [hch]
      · simp only [Bool.not_eq_true] at hch
        simp [hch]

end ScrapingSetup

namespace ScrapingSetup

/-! ## Write-then-read round trip for Values partitions -/

theorem keysNodup_of_perm {K V : Type} [DecidableEq K] {l l' : List (K × V)}
    (hp : l.Perm l') (hnd : keysNodup l) : keysNodup l' :=
  ((hp.map Prod.fst).nodup_iff).mp hnd

theorem afind_perm {K V : Type} [DecidableEq K] {l l' : List (K × V)}
    (hp : l.Perm l') (hnd : keysNodup l) (k : K) : afind k l' = afind k l := by
  cases h : afind k l with
  | none =>
      refine afind_eq_none_of_notmem ?_
      intro hmem
      exact afind_ne_none_of_mem_keys ((hp.map Prod.fst).mem_iff.mpr hmem) h
  | some v =>
      exact afind_eq_some_of_mem (keysNodup_of_perm hp hnd) (hp.mem_iff.mp (mem_of_afind_some h))

/-- Lookups are unchanged by the alphabetical column sort of the writer. -/
theorem afind_sortVals (m : List (String × Rat)) (hnd : keysNodup m) (k : String) :
    afind k (List.insertionSort (fun x y => x.1 ≤ y.1) m) = afind k m :=
  afind_perm (List.perm_insertionSort (fun x y => x.1 ≤ y.1) m).symm hnd k

theorem keysNodup_sortVals (m : List (String × Rat)) (hnd : keysNodup m) :
    keysNodup (List.insertionSort (fun x y => x.1 ≤ y.1) m) :=
  keysNodup_of_perm (List.perm_insertionSort (fun x y => x.1 ≤ y.1) m).symm hnd

/-- The rows the writer emits carry exactly the map's keys. -/
theorem writeVRows_keys_perm (a : VAssoc) :
    ((writeVRows a).map fun r => (r.start, r.stop)).Perm (a.map Prod.fst) := by
  unfold writeVRows
  rw [List.map_map]
  exact (List.perm_insertionSort
    (fun x y : (Int × Int) × Int × List (String × Rat) => x.1.1 ≤ y.1.1) a).map Prod.fst

/-- Reading distinct-keyed rows visits the or-insert branch every time. -/
theorem readVRows_aux (rows : List VRow) :
    ∀ acc : VAssoc,
      (∀ r ∈ rows, afind (r.start, r.stop) acc = none) →
      ((rows.map fun r => (r.start, r.stop)).Nodup) →
      rows.foldl readVRowStep acc =
        acc ++ rows.map fun r =>
          ((r.start, r.stop), (r.scrapedAt.getD 0, upsertAll r.vals [])) := by
  induction rows with
  | nil => intro acc _ _; simp
  | cons r t ih =>
      intro acc hnone hnd
      rw [List.foldl_cons]
      have hr : afind (r.start, r.stop) acc = none := hnone r (List.mem_cons_self _ _)
      have hstep : readVRowStep acc r =
          acc ++ [((r.start, r.stop), (r.scrapedAt.getD 0, upsertAll r.vals []))] := by
        unfold readVRowStep
        rw [hr]
      rw [hstep]
      rw [List.map_cons, List.nodup_cons] at hnd
      have hnone' : ∀ r' ∈ t,
          afind (r'.start, r'.stop)
            (acc ++ [((r.start, r.stop), (r.scrapedAt.getD 0, upsertAll r.vals []))]) = none := by
        intro r' hr'
        rw [afind_append, hnone r' (List.mem_cons_of_mem _ hr')]
        have hne : (r'.start, r'.stop) ≠ (r.start, r.stop) := by
          intro he
          exact hnd.1 (he ▸ List.mem_map_of_mem (fun r => (r.start, r.stop)) hr')
        simp [afind, hne]
      rw [ih _ hnone' hnd.2, List.append_assoc]
      rfl

theorem readVRows_of_distinct (rows : List VRow)
    (hnd : (rows.map fun r => (r.start, r.stop)).Nodup) :
    readVRows rows =
      rows.map fun r => ((r.start, r.stop), (r.scrapedAt.getD 0, upsertAll r.vals [])) := by
  unfold readVRows
  rw [readVRows_aux rows [] (by intro r _; rfl) hnd]
  rfl

theorem upsertAll_nil_afind (vs : List (String × Rat)) (hnd : keysNodup vs) (k : String) :
    afind k (upsertAll vs []) = afind k vs := by
  rw [afind_upsertAll vs [] k hnd]
  cases h : afind k vs <;> simp [afind]

/-- Reading back a written Values map: absent keys remain absent. -/
theorem roundtrip_none (a : VAssoc) (hg : goodAssoc a) (k : Int × Int)
    (h : afind k a = none) : afind k (readVRows (writeVRows a)) = none := by
  have hkeysW := writeVRows_keys_perm a
  have hnodupW : ((writeVRows a).map fun r => (r.start, r.stop)).Nodup :=
    (hkeysW.nodup_iff).mpr hg.1
  rw [readVRows_of_distinct _ hnodupW]
  refine afind_eq_none_of_notmem ?_
  intro hmem
  rw [List.map_map] at hmem
  have hmem' : k ∈ (writeVRows a).map fun r => (r.start, r.stop) := hmem
  exact afind_ne_none_of_mem_keys (hkeysW.mem_iff.mp hmem') h

/-- Reading back a written Values map: present keys keep their
`scraped_at` and their metric lookups. -/
theorem roundtrip_some (a : VAssoc) (hg : goodAssoc a) (k : Int × Int) (sa : Int)
    (m : List (String × Rat)) (h : afind k a = some (sa, m)) :
    ∃ m2, afind k (readVRows (writeVRows a)) = some (sa, m2) ∧
      ∀ k2, afind k2 m2 = afind k2 m := by
  have hkeysW := writeVRows_keys_perm a
  have hnodupW : ((writeVRows a).map fun r => (r.start, r.stop)).Nodup :=
    (hkeysW.nodup_iff).mpr hg.1
  have hmemA : (k, (sa, m)) ∈ a := mem_of_afind_some h
  have hndm : keysNodup m := hg.2 _ hmemA
  have hmemS : (k, (sa, m)) ∈ List.insertionSort
      (fun x y : (Int × Int) × Int × List (String × Rat) => x.1.1 ≤ y.1.1) a :=
    (List.perm_insertionSort _ a).mem_iff.mpr hmemA
  have hrow : (⟨k.1, k.2, some sa, List.insertionSort (fun x y => x.1 ≤ y.1) m⟩ : VRow)
      ∈ writeVRows a := by
    unfold writeVRows
    exact List.mem_map_of_mem _ hmemS
  rw [readVRows_of_distinct _ hnodupW]
  refine ⟨upsertAll (List.insertionSort (fun x y => x.1 ≤ y.1) m) [], ?_, ?_⟩
  · have hkeysMapped : keysNodup ((writeVRows a).map fun r =>
        ((r.start, r.stop), (r.scrapedAt.getD 0, upsertAll r.vals []))) := by
      unfold keysNodup
      rw [List.map_map]
      exact hnodupW
    exact afind_eq_some_of_mem hkeysMapped
      (List.mem_map_of_mem (fun r => ((r.start, r.stop), (r.scrapedAt.getD 0, upsertAll r.vals []))) hrow)
  · intro k2
    rw [upsertAll_nil_afind _ (keysNodup_sortVals m hndm) k2, afind_sortVals m hndm k2]

end ScrapingSetup

namespace ScrapingSetup

/-! ## C4: re-merging an identical reading is a no-op -/

theorem floatDiffers_self (v : Rat) : floatDiffers v v = false := by
  unfold floatDiffers ratAbs f64Epsilon
  norm_num

theorem optDiffers_self (x : Option Rat) : optDiffers x x = false := by
  cases x with
  | none => rfl
  | some v => simpa [optDiffers] using floatDiffers_self v

/-- A row whose stored metrics agree exactly with every incoming metric,
and which has already been scraped, does not count as changed. -/
theorem vRowChanged_false (sa : Int) (m vals : List (String × Rat)) (hsa : sa ≠ 0)
    (h : ∀ kv ∈ vals, afind kv.1 m = some kv.2) : vRowChanged sa m vals = false := by
  unfold vRowChanged
  rw [if_neg hsa]
  rw [List.any_eq_false]
  intro kv hkv
  rw [h kv hkv]
  simp [floatDiffers_self]

/-- After upserting an incoming reading, each of its metrics reads back
exactly as sent. -/
theorem afind_upsertAll_own (vals m : List (String × Rat)) (hnd : keysNodup vals)
    {kv : String × Rat} (hkv : kv ∈ vals) : afind kv.1 (upsertAll vals m) = some kv.2 := by
  rw [afind_upsertAll vals m kv.1 hnd, afind_eq_some_of_mem hnd
    (show (kv.1, kv.2) ∈ vals from hkv)]

/-- C4, Values half: merging one Values reading and then the identical
reading again returns `changed = false` the second time and leaves the
partition file untouched. -/
theorem processValues_remerge (file : List VRow) (df dt : Int)
    (vals : List (String × Rat)) (n1 n2 : Int) (h1 : n1 ≠ 0) (hnd : keysNodup vals) :
    processValues (processValues file [(df, dt, vals)] n1).2 [(df, dt, vals)] n2
      = (false, (processValues file [(df, dt, vals)] n1).2) := by
  have hg0 := readVRows_good file
  rw [processValues_single file df dt n1 vals]
  cases hfind : afind (df, dt) (readVRows file) with
  | none =>
      set a1 : VAssoc := readVRows file ++ [((df, dt), (n1, upsertAll vals []))] with ha1
      have hga1 : goodAssoc a1 := by
        refine ⟨keysNodup_append_single hg0.1 (afind_eq_none_iff.mp hfind), ?_⟩
        intro e he
        rcases List.mem_append.mp he with he | he
        · exact hg0.2 e he
        · rw [List.mem_singleton] at he
          subst he
          exact keysNodup_upsertAll _ _ List.nodup_nil
      have hfind1 : afind (df, dt) a1 = some (n1, upsertAll vals []) := by
        rw [ha1, afind_append, hfind]
        simp [afind]
      obtain ⟨m2, hm2find, hm2⟩ := roundtrip_some a1 hga1 (df, dt) n1 (upsertAll vals []) hfind1
      rw [processValues_single (writeVRows a1) df dt n2 vals, hm2find]
      have hch : vRowChanged n1 m2 vals = false := by
        refine vRowChanged_false n1 m2 vals h1 ?_
        intro kv hkv
        rw [hm2 kv.1, afind_upsertAll_own vals [] hnd hkv]
      simp [hch]
  | some v =>
      obtain ⟨sa, m⟩ := v
      by_cases hch : vRowChanged sa m vals = true
      · simp only [hch, if_true]
        set a1 : VAssoc := aset (df, dt) (n1, upsertAll vals m) (readVRows file) with ha1
        have hga1 : goodAssoc a1 := by
          refine ⟨keysNodup_aset hg0.1, ?_⟩
          intro e he
          rcases mem_aset he with he | he
          · subst he
            exact keysNodup_upsertAll _ _ (hg0.2 _ (mem_of_afind_some hfind))
          · exact hg0.2 e he
        have hfind1 : afind (df, dt) a1 = some (n1, upsertAll vals m) := afind_aset_self
        obtain ⟨m2, hm2find, hm2⟩ :=
          roundtrip_some a1 hga1 (df, dt) n1 (upsertAll vals m) hfind1
        rw [processValues_single (writeVRows a1) df dt n2 vals, hm2find]
        have hch2 : vRowChanged n1 m2 vals = false := by
          refine vRowChanged_false n1 m2 vals h1 ?_
          intro kv hkv
          rw [hm2 kv.1, afind_upsertAll_own vals m hnd hkv]
        simp [hch2]
      · simp only [Bool.not_eq_true] at hch
        simp only [hch, Bool.false_eq_true, if_false]
        rw [processValues_single file df dt n2 vals, hfind]
        simp [hch]

/-- C4, Bids half: merging one bid and then the identical bid again
returns `changed = false` the second time and leaves the file untouched. -/
theorem processBids_remerge (file : List BRow) (df dt : Int) (b : Bid) (m1 m2 : Int) :
    processBids (processBids file [(df, dt, b)] m1).2 [(df, dt, b)] m2
      = (false, (processBids file [(df, dt, b)] m1).2) := by
  have hsingle : ∀ (f : List BRow) (now : Int),
      processBids f [(df, dt, b)] now =
        if (match afind (df, dt, b.product, b.rank) (latestOf f) with
            | some pv => optDiffers pv.1 b.price || optDiffers pv.2 b.volume
            | none => true) then
          (true, f ++ [mkBRow df dt b now])
        else (false, f) := by
    intro f now
    simp only [processBids, List.foldl_cons, List.foldl_nil, mergeBid]
    cases hfind : afind (df, dt, b.product, b.rank) (latestOf f) with
    | none => simp
    | some pv =>
        by_cases hch : (optDiffers pv.1 b.price || optDiffers pv.2 b.volume) = true
        · simp [hch]
        · simp only [Bool.not_eq_true] at hch
          simp [hch]
  rw [hsingle file m1]
  cases hfind : afind (df, dt, b.product, b.rank) (latestOf file) with
  | none =>
      simp only [if_true]
      have hlatest : latestOf (file ++ [mkBRow df dt b m1]) =
          aset (df, dt, b.product, b.rank) (b.price, b.volume) (latestOf file) := by
        unfold latestOf
        rw [List.foldl_append]
        rfl
      rw [hsingle _ m2, hlatest, afind_aset_self]
      simp [optDiffers_self]
  | some pv =>
      by_cases hch : (optDiffers pv.1 b.price || optDiffers pv.2 b.volume) = true
      · simp only [hch, if_true]
        have hlatest : latestOf (file ++ [mkBRow df dt b m1]) =
            aset (df, dt, b.product, b.rank) (b.price, b.volume) (latestOf file) := by
          unfold latestOf
          rw [List.foldl_append]
          rfl
        rw [hsingle _ m2, hlatest, afind_aset_self]
        simp [optDiffers_self]
      · simp only [Bool.not_eq_true] at hch
        simp only [hch, Bool.false_eq_true, if_false]
        rw [hsingle file m2, hfind]
        simp [hch]

/-- C4.  For every reading — Values or Bids — merging it into a partition
and then immediately merging the identical reading again yields
`changed = false` on the second merge and leaves the partition file's
content identical (the code returns `Ok(false)` before touching the file).
The Values half needs the clock to be nonzero (`scraped_at = 0` marks
never-scraped rows) and the reading's metric names to be distinct (they
come from a `HashMap`). -/
theorem C4_remerge_idempotent (vfile : List VRow) (bfile : List BRow) (df dt : Int)
    (vals : List (String × Rat)) (b : Bid) (n1 n2 m1 m2 : Int)
    (h1 : n1 ≠ 0) (hnd : keysNodup vals) :
    processValues (processValues vfile [(df, dt, vals)] n1).2 [(df, dt, vals)] n2
        = (false, (processValues vfile [(df, dt, vals)] n1).2)
    ∧ processBids (processBids bfile [(df, dt, b)] m1).2 [(df, dt, b)] m2
        = (false, (processBids bfile [(df, dt, b)] m1).2) :=
  ⟨processValues_remerge vfile df dt vals n1 n2 h1 hnd,
   processBids_remerge bfile df dt b m1 m2⟩

unseal Rat.sub Rat.add Rat.mul Rat.inv in
/-- C4 witness: the idempotence at a concrete reading. -/
theorem C4_remerge_idempotent_witness :
    (5 : Int) ≠ 0 ∧ keysNodup [("a", (1 : Rat))] ∧
    (processValues (processValues [] [(0, 10, [("a", (1 : Rat))])] 5).2
        [(0, 10, [("a", (1 : Rat))])] 7
        = (false, (processValues [] [(0, 10, [("a", (1 : Rat))])] 5).2)
      ∧ processBids (processBids [] [(0, 10, ⟨"Y", 2, some 3, none⟩)] 5).2
          [(0, 10, ⟨"Y", 2, some 3, none⟩)] 7
          = (false, (processBids [] [(0, 10, ⟨"Y", 2, some 3, none⟩)] 5).2)) :=
  ⟨by decide, by decide,
   C4_remerge_idempotent [] [] 0 10 [("a", (1 : Rat))] ⟨"Y", 2, some 3, none⟩ 5 7 5 7
     (by decide) (by decide)⟩

end ScrapingSetup

namespace ScrapingSetup

/-! ## C6: the Values merge row update -/

/-- C6.  In a Values merge, for a stored row matching an incoming reading:
a reading whose metric values all equal the stored ones but which brings a
new metric name still counts as changed; and when the row counts as
changed, the merge reports a change and rewrites the partition so that the
row's `scraped_at` is the current instant, every incoming metric reads
back as sent, every stored metric not in the reading is unchanged, and the
partition keeps exactly one row per `(delivery_from, delivery_to)` key. -/
theorem C6_values_merge (file : List VRow) (df dt now : Int)
    (vals : List (String × Rat)) (sa : Int) (m : List (String × Rat))
    (hnd : keysNodup vals)
    (hfind : afind (df, dt) (readVRows file) = some (sa, m)) :
    ((∃ kv ∈ vals, afind kv.1 m = none) → vRowChanged sa m vals = true)
    ∧ (vRowChanged sa m vals = true →
        (processValues file [(df, dt, vals)] now).1 = true
        ∧ (∃ r ∈ (processValues file [(df, dt, vals)] now).2,
            r.start = df ∧ r.stop = dt ∧ r.scrapedAt = some now
            ∧ (∀ kv ∈ vals, afind kv.1 r.vals = some kv.2)
            ∧ (∀ k, k ∉ vals.map Prod.fst → afind k r.vals = afind k m))
        ∧ ((processValues file [(df, dt, vals)] now).2.map fun r => (r.start, r.stop)).Nodup) := by
  have hg0 := readVRows_good file
  have hndm : keysNodup m := hg0.2 _ (mem_of_afind_some hfind)
  constructor
  · rintro ⟨kv, hkv, hnone⟩
    unfold vRowChanged
    by_cases hsa : sa = 0
    · rw [if_pos hsa]
    · rw [if_neg hsa, List.any_eq_true]
      exact ⟨kv, hkv, by rw [hnone]⟩
  · intro hch
    rw [processValues_single file df dt now vals, hfind]
    simp only [hch, if_true]
    set a1 : VAssoc := aset (df, dt) (now, upsertAll vals m) (readVRows file) with ha1
    have hga1 : goodAssoc a1 := by
      refine ⟨keysNodup_aset hg0.1, ?_⟩
      intro e he
      rcases mem_aset he with he | he
      · subst he
        exact keysNodup_upsertAll _ _ hndm
      · exact hg0.2 e he
    have hndmm : keysNodup (upsertAll vals m) := keysNodup_upsertAll _ _ hndm
    refine ⟨by trivial, ?_, ?_⟩
    · have hmem1 : ((df, dt), (now, upsertAll vals m)) ∈ a1 :=
        mem_of_afind_some (afind_aset_self (l := readVRows file))
      have hmemS : ((df, dt), (now, upsertAll vals m)) ∈ List.insertionSort
          (fun x y : (Int × Int) × Int × List (String × Rat) => x.1.1 ≤ y.1.1) a1 :=
        (List.perm_insertionSort _ a1).mem_iff.mpr hmem1
      refine ⟨⟨df, dt, some now, List.insertionSort (fun x y => x.1 ≤ y.1) (upsertAll vals m)⟩,
        List.mem_map_of_mem _ hmemS, rfl, rfl, rfl, ?_, ?_⟩
      · intro kv hkv
        rw [afind_sortVals _ hndmm, afind_upsertAll_own vals m hnd hkv]
      · intro k hk
        rw [afind_sortVals _ hndmm, afind_upsertAll vals m k hnd,
          afind_eq_none_of_notmem hk]
    · exact ((writeVRows_keys_perm a1).nodup_iff).mpr hga1.1

unseal Rat.sub Rat.add Rat.mul Rat.inv in
/-- C6 witness: a stored row `{a: 1}` (already scraped at 42) merged with
`{a: 1, b: 2}` — the unchanged metric alone does not trigger the update,
the new column does. -/
theorem C6_values_merge_witness :
    keysNodup [("a", (1 : Rat)), ("b", (2 : Rat))]
    ∧ afind (0, 10) (readVRows [⟨0, 10, some 42, [("a", (1 : Rat))]⟩])
        = some (42, [("a", (1 : Rat))])
    ∧ (((∃ kv ∈ [("a", (1 : Rat)), ("b", (2 : Rat))], afind kv.1 [("a", (1 : Rat))] = none) →
          vRowChanged 42 [("a", (1 : Rat))] [("a", (1 : Rat)), ("b", (2 : Rat))] = true)
      ∧ (vRowChanged 42 [("a", (1 : Rat))] [("a", (1 : Rat)), ("b", (2 : Rat))] = true →
          (processValues [⟨0, 10, some 42, [("a", (1 : Rat))]⟩]
              [(0, 10, [("a", (1 : Rat)), ("b", (2 : Rat))])] 99).1 = true
          ∧ (∃ r ∈ (processValues [⟨0, 10, some 42, [("a", (1 : Rat))]⟩]
                [(0, 10, [("a", (1 : Rat)), ("b", (2 : Rat))])] 99).2,
              r.start = 0 ∧ r.stop = 10 ∧ r.scrapedAt = some 99
              ∧ (∀ kv ∈ [("a", (1 : Rat)), ("b", (2 : Rat))], afind kv.1 r.vals = some kv.2)
              ∧ (∀ k, k ∉ [("a", (1 : Rat)), ("b", (2 : Rat))].map Prod.fst →
                  afind k r.vals = afind k [("a", (1 : Rat))]))
          ∧ (((processValues [⟨0, 10, some 42, [("a", (1 : Rat))]⟩]
                [(0, 10, [("a", (1 : Rat)), ("b", (2 : Rat))])] 99).2.map
                  fun r => (r.start, r.stop)).Nodup))) :=
  ⟨by decide, by decide,
   C6_values_merge [⟨0, 10, some 42, [("a", (1 : Rat))]⟩] 0 10 99
     [("a", (1 : Rat)), ("b", (2 : Rat))] 42 [("a", (1 : Rat))] (by decide) (by decide)⟩

end ScrapingSetup

namespace ScrapingSetup

/-! ## C10: rows with scraped_at 0 always count as changed -/

/-- Files whose rows all lack the `scraped_at` column read back with
`scraped_at = 0` in every row-map entry (the reader's `unwrap_or(0)`). -/
theorem readVRows_zero_of_no_scraped_at (rows : List VRow)
    (hrows : ∀ r ∈ rows, r.scrapedAt = none) :
    ∀ k e, afind k (readVRows rows) = some e → e.1 = 0 := by
  unfold readVRows
  suffices h : ∀ (acc : VAssoc), (∀ k e, afind k acc = some e → e.1 = 0) →
      ∀ k e, afind k (rows.foldl readVRowStep acc) = some e → e.1 = 0 by
    refine h [] ?_
    intro k e he
    simp [afind] at he
  induction rows with
  | nil => intro acc hacc; exact hacc
  | cons r t ih =>
      intro acc hacc
      rw [List.foldl_cons]
      refine ih (fun r' hr' => hrows r' (List.mem_cons_of_mem _ hr')) _ ?_
      intro k e he
      unfold readVRowStep at he
      cases hfind : afind (r.start, r.stop) acc with
      | none =>
          rw [hfind] at he
          rw [afind_append] at he
          cases hacc2 : afind k acc with
          | some e2 =>
              rw [hacc2] at he
              exact hacc k e (by rw [hacc2, ← he])
          | none =>
              rw [hacc2] at he
              simp only at he
              by_cases hk : k = (r.start, r.stop)
              · rw [afind_cons, if_pos hk] at he
                injection he with he2
                rw [← he2, hrows r (List.mem_cons_self _ _)]
                rfl
              · rw [afind_cons, if_neg hk] at he
                simp [afind] at he
      | some v =>
          obtain ⟨sa, mm⟩ := v
          rw [hfind] at he
          by_cases hk : k = (r.start, r.stop)
          · subst hk
            rw [afind_aset_self] at he
            injection he with he2
            have : sa = 0 := hacc _ _ hfind
            rw [← he2, this]
          · rw [afind_aset_ne hk] at he
            exact hacc k e he

/-- C10.  A stored Values row whose `scraped_at` is 0 — which is how every
row of a file written without a `scraped_at` column reads back — is
treated as newly created: any incoming reading with its key marks it
changed and rewrites the file (stamping the current instant), even when
every incoming metric equals the stored value exactly. -/
theorem C10_zero_scraped_at_changed (file : List VRow) (df dt now : Int)
    (vals m : List (String × Rat))
    (hfind : afind (df, dt) (readVRows file) = some (0, m)) :
    (processValues file [(df, dt, vals)] now).1 = true
    ∧ (∃ r ∈ (processValues file [(df, dt, vals)] now).2,
        r.start = df ∧ r.stop = dt ∧ r.scrapedAt = some now)
    ∧ (∀ rows : List VRow, (∀ r ∈ rows, r.scrapedAt = none) →
        ∀ k e, afind k (readVRows rows) = some e → e.1 = 0) := by
  have hch : vRowChanged 0 m vals = true := by
    unfold vRowChanged
    rw [if_pos rfl]
  rw [processValues_single file df dt now vals, hfind]
  simp only [hch, if_true]
  refine ⟨by trivial, ?_, readVRows_zero_of_no_scraped_at⟩
  set a1 : VAssoc := aset (df, dt) (now, upsertAll vals m) (readVRows file) with ha1
  have hmem1 : ((df, dt), (now, upsertAll vals m)) ∈ a1 :=
    mem_of_afind_some (afind_aset_self (l := readVRows file))
  have hmemS : ((df, dt), (now, upsertAll vals m)) ∈ List.insertionSort
      (fun x y : (Int × Int) × Int × List (String × Rat) => x.1.1 ≤ y.1.1) a1 :=
    (List.perm_insertionSort _ a1).mem_iff.mpr hmem1
  exact ⟨⟨df, dt, some now, List.insertionSort (fun x y => x.1 ≤ y.1) (upsertAll vals m)⟩,
    List.mem_map_of_mem _ hmemS, rfl, rfl, rfl⟩

unseal Rat.sub Rat.add Rat.mul Rat.inv in
/-- C10 witness: a row read back from a file without a `scraped_at` column
(`scrapedAt = none`), re-merged with the identical metric value, still
triggers a rewrite. -/
theorem C10_zero_scraped_at_changed_witness :
    afind (0, 10) (readVRows [⟨0, 10, none, [("a", (1 : Rat))]⟩])
        = some (0, [("a", (1 : Rat))])
    ∧ ((processValues [⟨0, 10, none, [("a", (1 : Rat))]⟩]
          [(0, 10, [("a", (1 : Rat))])] 99).1 = true
      ∧ (∃ r ∈ (processValues [⟨0, 10, none, [("a", (1 : Rat))]⟩]
            [(0, 10, [("a", (1 : Rat))])] 99).2,
          r.start = 0 ∧ r.stop = 10 ∧ r.scrapedAt = some 99)
      ∧ (∀ rows : List VRow, (∀ r ∈ rows, r.scrapedAt = none) →
          ∀ k e, afind k (readVRows rows) = some e → e.1 = 0)) :=
  ⟨by decide,
   C10_zero_scraped_at_changed [⟨0, 10, none, [("a", (1 : Rat))]⟩] 0 10 99
     [("a", (1 : Rat))] [("a", (1 : Rat))] (by decide)⟩

end ScrapingSetup

namespace ScrapingSetup

/-! ## C7: partition directories follow the Vienna-local date -/

/-- C7.  The partition directory of a reading is determined by the
Vienna-local calendar date of `delivery_from` (storage.rs lines 53-58 and
79-85 convert with `with_timezone(&Vienna)` before taking year/month/day):
merging a single Values reading dirties exactly the path of that date.
Concretely, 2024-01-01T23:30:00Z is January 1st in UTC but January 2nd in
Vienna (UTC+1 in winter), and the reading lands in `day=02`, not
`day=01`. -/
theorem C7_vienna_date_partitioning :
    (∀ (basePath name : String) (df dt now : Int) (vals : List (String × Rat)),
      (saveIfNew basePath name none [⟨df, dt, .values vals⟩]
          (fun _ => []) (fun _ => []) now).dirty
        = [valuesFilePath (basePath ++ "/" ++ name) (viennaDateOfMicros df).1
            (viennaDateOfMicros df).2.1 (viennaDateOfMicros df).2.2])
    ∧ (utcDateOfMicros 1704151800000000 = (2024, 1, 1)
      ∧ viennaDateOfMicros 1704151800000000 = (2024, 1, 2)
      ∧ (saveIfNew "data" "src" none
            [⟨1704151800000000, 1704155400000000, .values [("p", 42)]⟩]
            (fun _ => []) (fun _ => []) 100).dirty
          = ["data/src/year=2024/month=01/day=02/data.parquet"]
      ∧ valuesFilePath "data/src" 2024 1 1
          ≠ "data/src/year=2024/month=01/day=02/data.parquet") := by
  constructor
  · intro basePath name df dt now vals
    rfl
  · refine ⟨by decide, by decide, by decide, by decide⟩

end ScrapingSetup

namespace ScrapingSetup

/-! ## C8: the retention cutoff -/

theorem dayDirDeletable_eq (dn mn yn : String) (anc : List String)
    (dv mv yv dateDays cutoffDays : Int)
    (hd : extractDatePart "day=" dn = some dv)
    (hm : extractDatePart "month=" mn = some mv)
    (hy : extractDatePart "year=" yn = some yv)
    (hdate : viennaMidnightDays yv mv dv = some dateDays) :
    dayDirDeletable dn (mn :: yn :: anc) cutoffDays = decide (dateDays < cutoffDays) := by
  unfold dayDirDeletable
  rw [hd]
  simp only
  rw [hm]
  simp only
  rw [hy]
  simp only
  rw [hdate]

theorem cleanupList_file_cons (cut : Int) (anc : List String) (fn : String)
    (ts : List FsTree) :
    cleanupList cut anc (FsTree.file fn :: ts) = .file fn :: cleanupList cut anc ts := by
  rw [cleanupList, cleanupRec]

/-- C8.  A day-partition directory (with a parseable `day=`/`month=`/`year=`
ancestry forming a real date, holding its data file) is deleted by the
retention pass — subtree and all, the walk stopping there — exactly when
its date is strictly before the Vienna-local date of `now` minus the
retention horizon (`cleanup` subtracts `Duration::days(n)` and compares
`date_naive()`s, storage.rs lines 108-135).  A directory dated on or after
that cutoff date is kept. -/
theorem C8_retention_cutoff (now n : Int) (dn mn yn : String) (anc : List String)
    (fn : String) (cs : List FsTree) (dv mv yv dateDays : Int)
    (hd : extractDatePart "day=" dn = some dv)
    (hm : extractDatePart "month=" mn = some mv)
    (hy : extractDatePart "year=" yn = some yv)
    (hdate : viennaMidnightDays yv mv dv = some dateDays) :
    cleanupRec (cleanupCutoffDays now n) (mn :: yn :: anc)
        (.dir dn (.file fn :: cs)) = none
      ↔ dateDays < cleanupCutoffDays now n := by
  rw [cleanupRec]
  rw [dayDirDeletable_eq dn mn yn anc dv mv yv dateDays _ hd hm hy hdate]
  by_cases hlt : dateDays < cleanupCutoffDays now n
  · simp [hlt]
  · rw [decide_eq_false hlt]
    simp only [Bool.false_eq_true, if_false]
    rw [cleanupList_file_cons]
    simp [hlt]

/-- C8 witness: with a 30-day horizon and now = 2024-06-15T12:00:00Z, the
partition dated exactly 30 days before (2024-05-16, Vienna) is retained
and the one dated 31 days before (2024-05-15) is deleted. -/
theorem C8_retention_cutoff_witness :
    (extractDatePart "day=" "day=16" = some 16
      ∧ extractDatePart "month=" "month=05" = some 5
      ∧ extractDatePart "year=" "year=2024" = some 2024
      ∧ viennaMidnightDays 2024 5 16 = some 19859
      ∧ cleanupRec (cleanupCutoffDays 1718452800 30) ["month=05", "year=2024"]
          (.dir "day=16" [.file "data.parquet"]) ≠ none)
    ∧ (extractDatePart "day=" "day=15" = some 15
      ∧ viennaMidnightDays 2024 5 15 = some 19858
      ∧ cleanupRec (cleanupCutoffDays 1718452800 30) ["month=05", "year=2024"]
          (.dir "day=15" [.file "data.parquet"]) = none) := by
  refine ⟨⟨by decide, by decide, by decide, by decide, ?_⟩, by decide, by decide, ?_⟩
  · intro h
    have hiff := (C8_retention_cutoff 1718452800 30 "day=16" "month=05" "year=2024" []
      "data.parquet" [] 16 5 2024 19859 (by decide) (by decide) (by decide) (by decide)).mp h
    exact absurd hiff (by decide)
  · exact (C8_retention_cutoff 1718452800 30 "day=15" "month=05" "year=2024" []
      "data.parquet" [] 15 5 2024 19858 (by decide) (by decide) (by decide)
      (by decide)).mpr (by decide)

end ScrapingSetup
